import Mathlib

/-!
Verification of the bip39 mnemonic finder (files find_bip39_mnemonic_mp.py and
find_bip39_mnemonic_st.py) against its natural-language specification.

The cryptographic library calls (Bip39MnemonicDecoder, the BIP32 and BIP44
derivation and address encoding) are external, opaque, deterministic functions;
they are modelled by an Oracle record of abstract functions.  The configuration
constants at the top of each Python file are modelled by a Config record so the
theorems quantify over every configuration.  Every derived-and-compared address
is recorded as an Ev event, mirroring the message accumulation the source
performs for the same data; the list of emitted log messages is returned
explicitly.  The multiprocessing machinery (logger loop, checker worker loop,
generator loop) is modelled as deterministic loops over an explicit schedule of
reads of the shared stop flag.
-/

set_option autoImplicit false

namespace Bip39Finder

/-- Run configuration: the module-level constants of both Python files
(BIP32_ENABLED, BIP32_DERIVATION_PATHS, BIP32_ADDRESSES_NUM, BIP44_ENABLED,
BIP44_ACCOUNTS_NUM, BIP44_ADDRESSES_NUM, MNEMONIC_PASSPHRASES,
ADDRESSES_TO_SEARCH, VERBOSE). -/
structure Config where
  bip32Enabled : Bool
  bip32Paths : List String
  bip32AddrNum : Nat
  bip44Enabled : Bool
  bip44AccountsNum : Nat
  bip44AddrNum : Nat
  passphrases : List String
  addressesToSearch : List String
  verbose : Bool

/-- The external bip_utils functions, opaque and deterministic.
checksumOk m models Bip39MnemonicDecoder(ENGLISH).Decode(m) not raising
MnemonicChecksumError.  bip32Addr m p path i models the composition
EncodeKey(Bip32Slip10Secp256k1.FromSeedAndPath(Generate(m, p), path)
.DerivePath(str(i)).PublicKey().KeyObject()).  bip44Addr m p a j models
Bip44.FromSeed(Generate(m, p), COIN).Purpose().Coin().Account(a)
.Change(CHANGE).AddressIndex(j).PublicKey().ToAddress(). -/
structure Oracle where
  checksumOk : String → Bool
  bip32Addr : String → String → String → Nat → String
  bip44Addr : String → String → Nat → Nat → String

/-- One derived-and-compared address: which passphrase, which derivation
scheme and indices, and the encoded address that was compared to
ADDRESSES_TO_SEARCH.  The source computes exactly this data at each loop
iteration (it also interpolates it into its verbose message). -/
inductive Ev where
  | bip32 (pass path : String) (idx : Nat) (addr : String)
  | bip44 (pass : String) (account idx : Nat) (addr : String)
deriving DecidableEq

/-- The passphrase under which an event was derived. -/
def Ev.pass : Ev → String
  | .bip32 p _ _ _ => p
  | .bip44 p _ _ _ => p

/-- The encoded address of an event. -/
def Ev.addr : Ev → String
  | .bip32 _ _ _ a => a
  | .bip44 _ _ _ a => a

/-- Model of itertools.product over the word lists: cartesian product in the
order that varies the last component fastest, exactly as documented for
itertools.product. -/
def productLists : List (List String) → List (List String)
  | [] => [[]]
  | ws :: rest => ws.flatMap (fun w => (productLists rest).map (fun c => w :: c))

/-- Mixed-radix rank of a tuple of per-slot indices: the position at which
the corresponding candidate appears in productLists (last slot fastest). -/
def rankIdx : List Nat → List (List String) → Nat
  | i :: is, _ :: wss => i * ((wss.map List.length).prod) + rankIdx is wss
  | _, _ => 0

/-- The candidate selected by a tuple of per-slot indices. -/
def selectIdx : List Nat → List (List String) → List String
  | i :: is, ws :: wss => ws.getD i "" :: selectIdx is wss
  | _, _ => []

namespace Mp

/-- The match record logged by both derive functions of the mp variant
(lines 183 and 211): Found, address, mnemonic, passphrase. -/
def foundMsg (addr m p : String) : String :=
  "\n    Found: " ++ addr ++ ", mnemonic: " ++ m ++ ", passphrase: " ++ p

/-- Inner loop of derive_bip32_addresses (mp, lines 176-184): for each address
index, derive and encode an address, extend the verbose message, and return
the address on the first hit in ADDRESSES_TO_SEARCH.  Returns (matched
address if any, accumulated verbose message, derived-address events). -/
def bip32ScanIdx (O : Oracle) (tg : List String) (m p path : String) :
    List Nat → String → Option String × String × List Ev
  | [], msg => (none, msg, [])
  | i :: rest, msg =>
    let addr := O.bip32Addr m p path i
    let msg2 := msg ++ "\n    BIP32 Address " ++ toString i ++ ": " ++ addr
    if addr ∈ tg then
      (some addr, msg2, [Ev.bip32 p path i addr])
    else
      let r := bip32ScanIdx O tg m p path rest msg2
      (r.1, r.2.1, Ev.bip32 p path i addr :: r.2.2)

/-- Outer loop of derive_bip32_addresses (mp, lines 169-184): for each
configured derivation path, scan the address indices 0..n-1. -/
def bip32ScanPaths (O : Oracle) (tg : List String) (n : Nat) (m p : String) :
    List String → String → Option String × String × List Ev
  | [], msg => (none, msg, [])
  | path :: rest, msg =>
    let msg2 := msg ++ "\n  BIP32 Derivation path: " ++ path
    let r := bip32ScanIdx O tg m p path (List.range n) msg2
    match r.1 with
    | some a => (some a, r.2.1, r.2.2)
    | none =>
      let r2 := bip32ScanPaths O tg n m p rest r.2.1
      (r2.1, r2.2.1, r.2.2 ++ r2.2.2)

/-- derive_bip32_addresses (mp, lines 161-188).  Returns (result, emitted log
messages, derived-address events).  On a match the source logs the Found
record at the match point and returns True, discarding the accumulated
verbose message; with no match it logs the verbose message only when VERBOSE
is set and returns False. -/
def derive_bip32_addresses (cfg : Config) (O : Oracle) (m p : String) :
    Bool × List String × List Ev :=
  if cfg.bip32Enabled then
    let msg := "Mnemonic: " ++ m ++ ", passphrase: " ++ p
    let r := bip32ScanPaths O cfg.addressesToSearch cfg.bip32AddrNum m p cfg.bip32Paths msg
    match r.1 with
    | some a => (true, [foundMsg a m p], r.2.2)
    | none => (false, if cfg.verbose then [r.2.1] else [], r.2.2)
  else (false, [], [])

/-- Inner loop of derive_bip44_addresses (mp, lines 207-212): for each address
index under the given account, derive an address and return it on the first
hit. -/
def bip44ScanIdx (O : Oracle) (tg : List String) (m p : String) (a : Nat) :
    List Nat → String → Option String × String × List Ev
  | [], msg => (none, msg, [])
  | j :: rest, msg =>
    let addr := O.bip44Addr m p a j
    let msg2 := msg ++ "\n    BIP44 Address " ++ toString j ++ ": " ++ addr
    if addr ∈ tg then
      (some addr, msg2, [Ev.bip44 p a j addr])
    else
      let r := bip44ScanIdx O tg m p a rest msg2
      (r.1, r.2.1, Ev.bip44 p a j addr :: r.2.2)

/-- Outer loop of derive_bip44_addresses (mp, lines 203-212): for each account
index, scan the address indices 0..n-1. -/
def bip44ScanAccounts (O : Oracle) (tg : List String) (n : Nat) (m p : String) :
    List Nat → String → Option String × String × List Ev
  | [], msg => (none, msg, [])
  | a :: rest, msg =>
    let msg2 := msg ++ "\n  BIP44 Account: " ++ toString a
    let r := bip44ScanIdx O tg m p a (List.range n) msg2
    match r.1 with
    | some x => (some x, r.2.1, r.2.2)
    | none =>
      let r2 := bip44ScanAccounts O tg n m p rest r.2.1
      (r2.1, r2.2.1, r.2.2 ++ r2.2.2)

/-- derive_bip44_addresses (mp, lines 191-216). -/
def derive_bip44_addresses (cfg : Config) (O : Oracle) (m p : String) :
    Bool × List String × List Ev :=
  if cfg.bip44Enabled then
    let msg := "Mnemonic: " ++ m ++ ", passphrase: " ++ p
    let r := bip44ScanAccounts O cfg.addressesToSearch cfg.bip44AddrNum m p
      (List.range cfg.bip44AccountsNum) msg
    match r.1 with
    | some a => (true, [foundMsg a m p], r.2.2)
    | none => (false, if cfg.verbose then [r.2.1] else [], r.2.2)
  else (false, [], [])

/-- The passphrase loop of check_mnemonic (mp, lines 226-230): for each
passphrase in configured order, try the BIP32 derivation then the BIP44
derivation, returning True on the first match. -/
def checkPassLoop (cfg : Config) (O : Oracle) (m : String) :
    List String → Bool × List String × List Ev
  | [] => (false, [], [])
  | p :: rest =>
    let r32 := derive_bip32_addresses cfg O m p
    if r32.1 then (true, r32.2.1, r32.2.2)
    else
      let r44 := derive_bip44_addresses cfg O m p
      if r44.1 then (true, r32.2.1 ++ r44.2.1, r32.2.2 ++ r44.2.2)
      else
        let r := checkPassLoop cfg O m rest
        (r.1, r32.2.1 ++ r44.2.1 ++ r.2.1, r32.2.2 ++ r44.2.2 ++ r.2.2)

/-- check_mnemonic (mp, lines 219-232): if decoding raises the checksum error
the candidate is dropped (False, nothing derived, nothing logged); otherwise
the passphrase loop runs. -/
def check_mnemonic (cfg : Config) (O : Oracle) (m : String) :
    Bool × List String × List Ev :=
  if O.checksumOk m then checkPassLoop cfg O m cfg.passphrases
  else (false, [], [])

/-- get_total_mnemonic_combinations (mp, lines 117-120; identical in st,
lines 112-115): functools.reduce(operator.mul, lengths, 1) is a left fold. -/
def get_total_mnemonic_combinations (fixed : String) (words : List (List String)) : Nat :=
  if fixed ≠ "" then 1
  else (words.map List.length).foldl (· * ·) 1

/-- get_total_addresses (mp, lines 123-128; identical in st, lines 118-123). -/
def get_total_addresses (cfg : Config) (fixed : String) (words : List (List String)) : Nat :=
  let bip32AddrNum := if cfg.bip32Enabled then cfg.bip32Paths.length * cfg.bip32AddrNum else 0
  let bip44AddrNum := if cfg.bip44Enabled then cfg.bip44AddrNum * cfg.bip44AccountsNum else 0
  let totalAddrNum := (bip32AddrNum + bip44AddrNum) * cfg.passphrases.length
  get_total_mnemonic_combinations fixed words * totalAddrNum

/-- The drain loop of logger_process_fct (mp, lines 256-263).  Each iteration
first reads the shared stop flag (the schedule supplies the sequence of values
read); while it is false, one get(timeout=1) either times out (queue empty) or
dequeues a message and writes it to the log.  The loop exits as soon as the
flag reads true.  Returns the list of messages written when the observed
iterations run out or the loop exits. -/
def loggerLoop : List Bool → List String → List String → List String
  | [], _, written => written
  | s :: sched, q, written =>
    if s then written
    else
      match q with
      | [] => loggerLoop sched [] written
      | msg :: rest => loggerLoop sched rest (written ++ [msg])

/-- The worker loop of mnemonic_checker_process_fct (mp, lines 274-284),
abstracted over the per-candidate check.  Each iteration first reads the stop
flag; while it is false, one get(timeout=1) either times out or pulls a
candidate, which is then checked to completion (the flag is only read again at
the next loop head).  On a match the worker sets the flag and breaks.
Returns (remaining queue, candidates checked to completion, match found). -/
def checkerLoop {α : Type} (chk : α → Bool) :
    List Bool → List α → List α → List α × List α × Bool
  | [], q, done => (q, done, false)
  | s :: sched, q, done =>
    if s then (q, done, false)
    else
      match q with
      | [] => checkerLoop chk sched [] done
      | c :: rest =>
        if chk c then (rest, done ++ [c], true)
        else checkerLoop chk sched rest (done ++ [c])

/-- The emission loop of mnemonic_generator_process_fct (mp, lines 293-298):
iterate over the product, reading the stop flag before each put and breaking
when it is true. -/
def generatorEmit (stop : Nat → Bool) : List (List String) → Nat → List (List String)
  | [], _ => []
  | c :: rest, n =>
    if stop n then []
    else c :: generatorEmit stop rest (n + 1)

/-- mnemonic_generator_process_fct (mp, lines 289-302): the sequence of
candidates put on the work queue. -/
def mnemonic_generator_process_fct (stop : Nat → Bool) (words : List (List String)) :
    List (List String) :=
  generatorEmit stop (productLists words) 0

/-- The candidate sequence produced by main (mp, lines 388-392): a single
fixed candidate when MNEMONIC_FIXED is non-empty (fromString models
Bip39Mnemonic.FromString), otherwise the generator sequence. -/
def enumeratedCandidates (fromString : String → List String) (fixed : String)
    (words : List (List String)) (stop : Nat → Bool) : List (List String) :=
  if fixed ≠ "" then [fromString fixed]
  else mnemonic_generator_process_fct stop words

end Mp

namespace St

/-- The match record logged by both derive functions of the st variant
(lines 188 and 212). -/
def foundMsg (addr m p : String) : String :=
  "    Found: " ++ addr ++ ", mnemonic: " ++ m ++ ", passphrase: " ++ p

/-- A debug-level log call of the st variant: log_verbose calls logging.debug,
and configure_logger (line 155) sets the level to DEBUG exactly when VERBOSE
is set, so a debug message reaches the log file exactly when v is true. -/
def vlog (v : Bool) (msg : String) : List String :=
  if v then [msg] else []

/-- Inner loop of derive_bip32_addresses (st, lines 181-189): logs each
derived address at debug level, and on the first hit logs the Found record
and returns the address. -/
def bip32ScanIdx (O : Oracle) (tg : List String) (v : Bool) (m p path : String) :
    List Nat → Option String × List String × List Ev
  | [] => (none, [], [])
  | i :: rest =>
    let addr := O.bip32Addr m p path i
    let ls := vlog v ("    BIP32 Address " ++ toString i ++ ": " ++ addr)
    if addr ∈ tg then
      (some addr, ls ++ [foundMsg addr m p], [Ev.bip32 p path i addr])
    else
      let r := bip32ScanIdx O tg v m p path rest
      (r.1, ls ++ r.2.1, Ev.bip32 p path i addr :: r.2.2)

/-- Outer loop of derive_bip32_addresses (st, lines 174-189). -/
def bip32ScanPaths (O : Oracle) (tg : List String) (v : Bool) (n : Nat) (m p : String) :
    List String → Option String × List String × List Ev
  | [] => (none, [], [])
  | path :: rest =>
    let ls := vlog v ("  BIP32 Derivation path: " ++ path)
    let r := bip32ScanIdx O tg v m p path (List.range n)
    match r.1 with
    | some a => (some a, ls ++ r.2.1, r.2.2)
    | none =>
      let r2 := bip32ScanPaths O tg v n m p rest
      (r2.1, ls ++ r.2.1 ++ r2.2.1, r.2.2 ++ r2.2.2)

/-- derive_bip32_addresses (st, lines 167-190). -/
def derive_bip32_addresses (cfg : Config) (O : Oracle) (m p : String) :
    Bool × List String × List Ev :=
  if cfg.bip32Enabled then
    let ls := vlog cfg.verbose ("Mnemonic: " ++ m ++ ", passphrase: " ++ p)
    let r := bip32ScanPaths O cfg.addressesToSearch cfg.verbose cfg.bip32AddrNum m p
      cfg.bip32Paths
    (r.1.isSome, ls ++ r.2.1, r.2.2)
  else (false, [], [])

/-- Inner loop of derive_bip44_addresses (st, lines 208-213). -/
def bip44ScanIdx (O : Oracle) (tg : List String) (v : Bool) (m p : String) (a : Nat) :
    List Nat → Option String × List String × List Ev
  | [] => (none, [], [])
  | j :: rest =>
    let addr := O.bip44Addr m p a j
    let ls := vlog v ("    BIP44 Address " ++ toString j ++ ": " ++ addr)
    if addr ∈ tg then
      (some addr, ls ++ [foundMsg addr m p], [Ev.bip44 p a j addr])
    else
      let r := bip44ScanIdx O tg v m p a rest
      (r.1, ls ++ r.2.1, Ev.bip44 p a j addr :: r.2.2)

/-- Outer loop of derive_bip44_addresses (st, lines 204-213). -/
def bip44ScanAccounts (O : Oracle) (tg : List String) (v : Bool) (n : Nat) (m p : String) :
    List Nat → Option String × List String × List Ev
  | [] => (none, [], [])
  | a :: rest =>
    let ls := vlog v ("  BIP44 Account: " ++ toString a)
    let r := bip44ScanIdx O tg v m p a (List.range n)
    match r.1 with
    | some x => (some x, ls ++ r.2.1, r.2.2)
    | none =>
      let r2 := bip44ScanAccounts O tg v n m p rest
      (r2.1, ls ++ r.2.1 ++ r2.2.1, r.2.2 ++ r2.2.2)

/-- derive_bip44_addresses (st, lines 193-214). -/
def derive_bip44_addresses (cfg : Config) (O : Oracle) (m p : String) :
    Bool × List String × List Ev :=
  if cfg.bip44Enabled then
    let ls := vlog cfg.verbose ("Mnemonic: " ++ m ++ ", passphrase: " ++ p)
    let r := bip44ScanAccounts O cfg.addressesToSearch cfg.verbose cfg.bip44AddrNum m p
      (List.range cfg.bip44AccountsNum)
    (r.1.isSome, ls ++ r.2.1, r.2.2)
  else (false, [], [])

/-- The passphrase loop of check_mnemonic (st, lines 223-227). -/
def checkPassLoop (cfg : Config) (O : Oracle) (m : String) :
    List String → Bool × List String × List Ev
  | [] => (false, [], [])
  | p :: rest =>
    let r32 := derive_bip32_addresses cfg O m p
    if r32.1 then (true, r32.2.1, r32.2.2)
    else
      let r44 := derive_bip44_addresses cfg O m p
      if r44.1 then (true, r32.2.1 ++ r44.2.1, r32.2.2 ++ r44.2.2)
      else
        let r := checkPassLoop cfg O m rest
        (r.1, r32.2.1 ++ r44.2.1 ++ r.2.1, r32.2.2 ++ r44.2.2 ++ r.2.2)

/-- check_mnemonic (st, lines 217-229). -/
def check_mnemonic (cfg : Config) (O : Oracle) (m : String) :
    Bool × List String × List Ev :=
  if O.checksumOk m then checkPassLoop cfg O m cfg.passphrases
  else (false, [], [])

/-- get_total_mnemonic_combinations (st, lines 112-115). -/
def get_total_mnemonic_combinations (fixed : String) (words : List (List String)) : Nat :=
  if fixed ≠ "" then 1
  else (words.map List.length).foldl (· * ·) 1

/-- get_total_addresses (st, lines 118-123). -/
def get_total_addresses (cfg : Config) (fixed : String) (words : List (List String)) : Nat :=
  let bip32AddrNum := if cfg.bip32Enabled then cfg.bip32Paths.length * cfg.bip32AddrNum else 0
  let bip44AddrNum := if cfg.bip44Enabled then cfg.bip44AddrNum * cfg.bip44AccountsNum else 0
  let totalAddrNum := (bip32AddrNum + bip44AddrNum) * cfg.passphrases.length
  get_total_mnemonic_combinations fixed words * totalAddrNum

end St

/-- Some configured path and in-range address index derives, for this
mnemonic and passphrase, an address that lies in the target set, with the
BIP32 scheme enabled. -/
def bip32Hit (cfg : Config) (O : Oracle) (m p : String) : Prop :=
  cfg.bip32Enabled = true ∧
    ∃ path ∈ cfg.bip32Paths, ∃ i < cfg.bip32AddrNum,
      O.bip32Addr m p path i ∈ cfg.addressesToSearch

/-- Some in-range account and address index derives an address in the target
set under the standardized scheme, with it enabled. -/
def bip44Hit (cfg : Config) (O : Oracle) (m p : String) : Prop :=
  cfg.bip44Enabled = true ∧
    ∃ a < cfg.bip44AccountsNum, ∃ j < cfg.bip44AddrNum,
      O.bip44Addr m p a j ∈ cfg.addressesToSearch

/-- Order-independent existence of a match for a candidate: some configured
passphrase, under some enabled scheme and in-range indices, derives an
address that is a member of the target set. -/
def matchFound (cfg : Config) (O : Oracle) (m : String) : Prop :=
  ∃ p ∈ cfg.passphrases, bip32Hit cfg O m p ∨ bip44Hit cfg O m p

/-- The address a was derived by the BIP32 scheme at some configured path
and in-range index. -/
def bip32Evidence (cfg : Config) (O : Oracle) (m p a : String) : Prop :=
  cfg.bip32Enabled = true ∧
    ∃ path ∈ cfg.bip32Paths, ∃ i < cfg.bip32AddrNum, a = O.bip32Addr m p path i

/-- The address a was derived by the BIP44 scheme at some in-range account
and index. -/
def bip44Evidence (cfg : Config) (O : Oracle) (m p a : String) : Prop :=
  cfg.bip44Enabled = true ∧
    ∃ acc < cfg.bip44AccountsNum, ∃ j < cfg.bip44AddrNum, a = O.bip44Addr m p acc j

section MpBoolLemmas

variable (O : Oracle) (tg : List String) (m p : String)

lemma mp_bip32ScanIdx_isSome (path : String) :
    ∀ (idxs : List Nat) (msg : String),
      ((Mp.bip32ScanIdx O tg m p path idxs msg).1.isSome = true ↔
        ∃ i ∈ idxs, O.bip32Addr m p path i ∈ tg) := by
  intro idxs
  induction idxs with
  | nil => intro msg; simp [Mp.bip32ScanIdx]
  | cons i rest ih =>
    intro msg
    by_cases h : O.bip32Addr m p path i ∈ tg
    · simp [Mp.bip32ScanIdx, h]
    · simp only [Mp.bip32ScanIdx, if_neg h]
      simp [ih, h]

lemma mp_bip32ScanPaths_isSome (n : Nat) :
    ∀ (paths : List String) (msg : String),
      ((Mp.bip32ScanPaths O tg n m p paths msg).1.isSome = true ↔
        ∃ path ∈ paths, ∃ i < n, O.bip32Addr m p path i ∈ tg) := by
  intro paths
  induction paths with
  | nil => intro msg; simp [Mp.bip32ScanPaths]
  | cons path rest ih =>
    intro msg
    simp only [Mp.bip32ScanPaths]
    cases ho : (Mp.bip32ScanIdx O tg m p path (List.range n)
        (msg ++ "\n  BIP32 Derivation path: " ++ path)).1 with
    | some a =>
      have hs : ∃ i < n, O.bip32Addr m p path i ∈ tg := by
        have := (mp_bip32ScanIdx_isSome O tg m p path (List.range n)
          (msg ++ "\n  BIP32 Derivation path: " ++ path)).mp (by rw [ho]; rfl)
        simpa [List.mem_range] using this
      simp only [ho]
      constructor
      · intro _; exact ⟨path, by simp, hs⟩
      · intro _; rfl
    | none =>
      have hs : ¬ ∃ i < n, O.bip32Addr m p path i ∈ tg := by
        intro hc
        have : (Mp.bip32ScanIdx O tg m p path (List.range n)
            (msg ++ "\n  BIP32 Derivation path: " ++ path)).1.isSome = true := by
          rw [mp_bip32ScanIdx_isSome]
          simpa [List.mem_range] using hc
        rw [ho] at this; simp at this
      simp only [ho]
      rw [ih]
      constructor
      · rintro ⟨q, hq, hi⟩; exact ⟨q, by simp [hq], hi⟩
      · rintro ⟨q, hq, hi⟩
        rcases List.mem_cons.mp hq with rfl | hq2
        · exact absurd hi hs
        · exact ⟨q, hq2, hi⟩

lemma mp_bip44ScanIdx_isSome (a : Nat) :
    ∀ (idxs : List Nat) (msg : String),
      ((Mp.bip44ScanIdx O tg m p a idxs msg).1.isSome = true ↔
        ∃ j ∈ idxs, O.bip44Addr m p a j ∈ tg) := by
  intro idxs
  induction idxs with
  | nil => intro msg; simp [Mp.bip44ScanIdx]
  | cons j rest ih =>
    intro msg
    by_cases h : O.bip44Addr m p a j ∈ tg
    · simp [Mp.bip44ScanIdx, h]
    · simp only [Mp.bip44ScanIdx, if_neg h]
      simp [ih, h]

lemma mp_bip44ScanAccounts_isSome (n : Nat) :
    ∀ (accs : List Nat) (msg : String),
      ((Mp.bip44ScanAccounts O tg n m p accs msg).1.isSome = true ↔
        ∃ a ∈ accs, ∃ j < n, O.bip44Addr m p a j ∈ tg) := by
  intro accs
  induction accs with
  | nil => intro msg; simp [Mp.bip44ScanAccounts]
  | cons a rest ih =>
    intro msg
    simp only [Mp.bip44ScanAccounts]
    cases ho : (Mp.bip44ScanIdx O tg m p a (List.range n)
        (msg ++ "\n  BIP44 Account: " ++ toString a)).1 with
    | some x =>
      have hs : ∃ j < n, O.bip44Addr m p a j ∈ tg := by
        have := (mp_bip44ScanIdx_isSome O tg m p a (List.range n)
          (msg ++ "\n  BIP44 Account: " ++ toString a)).mp (by rw [ho]; rfl)
        simpa [List.mem_range] using this
      simp only [ho]
      constructor
      · intro _; exact ⟨a, by simp, hs⟩
      · intro _; rfl
    | none =>
      have hs : ¬ ∃ j < n, O.bip44Addr m p a j ∈ tg := by
        intro hc
        have : (Mp.bip44ScanIdx O tg m p a (List.range n)
            (msg ++ "\n  BIP44 Account: " ++ toString a)).1.isSome = true := by
          rw [mp_bip44ScanIdx_isSome]
          simpa [List.mem_range] using hc
        rw [ho] at this; simp at this
      simp only [ho]
      rw [ih]
      constructor
      · rintro ⟨b, hb, hj⟩; exact ⟨b, by simp [hb], hj⟩
      · rintro ⟨b, hb, hj⟩
        rcases List.mem_cons.mp hb with rfl | hb2
        · exact absurd hj hs
        · exact ⟨b, hb2, hj⟩

end MpBoolLemmas

section MpCheckLemmas

variable (cfg : Config) (O : Oracle) (m : String)

lemma mp_derive32_true_iff (p : String) :
    (Mp.derive_bip32_addresses cfg O m p).1 = true ↔ bip32Hit cfg O m p := by
  unfold Mp.derive_bip32_addresses bip32Hit
  cases hE : cfg.bip32Enabled with
  | false => simp
  | true =>
    simp only [if_pos rfl, true_and]
    cases ho : (Mp.bip32ScanPaths O cfg.addressesToSearch cfg.bip32AddrNum m p
        cfg.bip32Paths ("Mnemonic: " ++ m ++ ", passphrase: " ++ p)).1 with
    | some a =>
      have := (mp_bip32ScanPaths_isSome O cfg.addressesToSearch m p cfg.bip32AddrNum
        cfg.bip32Paths ("Mnemonic: " ++ m ++ ", passphrase: " ++ p)).mp (by rw [ho]; rfl)
      simpa [ho] using this
    | none =>
      have hn : ¬ ∃ path ∈ cfg.bip32Paths, ∃ i < cfg.bip32AddrNum,
          O.bip32Addr m p path i ∈ cfg.addressesToSearch := by
        intro hc
        have := (mp_bip32ScanPaths_isSome O cfg.addressesToSearch m p cfg.bip32AddrNum
          cfg.bip32Paths ("Mnemonic: " ++ m ++ ", passphrase: " ++ p)).mpr hc
        rw [ho] at this; simp at this
      simpa [ho] using hn

lemma mp_derive44_true_iff (p : String) :
    (Mp.derive_bip44_addresses cfg O m p).1 = true ↔ bip44Hit cfg O m p := by
  unfold Mp.derive_bip44_addresses bip44Hit
  cases hE : cfg.bip44Enabled with
  | false => simp
  | true =>
    simp only [if_pos rfl, true_and]
    cases ho : (Mp.bip44ScanAccounts O cfg.addressesToSearch cfg.bip44AddrNum m p
        (List.range cfg.bip44AccountsNum) ("Mnemonic: " ++ m ++ ", passphrase: " ++ p)).1 with
    | some a =>
      have := (mp_bip44ScanAccounts_isSome O cfg.addressesToSearch m p cfg.bip44AddrNum
        (List.range cfg.bip44AccountsNum)
        ("Mnemonic: " ++ m ++ ", passphrase: " ++ p)).mp (by rw [ho]; rfl)
      simpa [ho, List.mem_range] using this
    | none =>
      have hn : ¬ ∃ a < cfg.bip44AccountsNum, ∃ j < cfg.bip44AddrNum,
          O.bip44Addr m p a j ∈ cfg.addressesToSearch := by
        intro hc
        have := (mp_bip44ScanAccounts_isSome O cfg.addressesToSearch m p cfg.bip44AddrNum
          (List.range cfg.bip44AccountsNum)
          ("Mnemonic: " ++ m ++ ", passphrase: " ++ p)).mpr (by
            simpa [List.mem_range] using hc)
        rw [ho] at this; simp at this
      simpa [ho, List.mem_range] using hn

lemma mp_checkPassLoop_true_iff :
    ∀ ps : List String,
      ((Mp.checkPassLoop cfg O m ps).1 = true ↔
        ∃ p ∈ ps, bip32Hit cfg O m p ∨ bip44Hit cfg O m p) := by
  intro ps
  induction ps with
  | nil => simp [Mp.checkPassLoop]
  | cons p rest ih =>
    simp only [Mp.checkPassLoop]
    by_cases h32 : (Mp.derive_bip32_addresses cfg O m p).1 = true
    · simp only [h32, if_pos]
      constructor
      · intro _
        exact ⟨p, by simp, Or.inl ((mp_derive32_true_iff cfg O m p).mp h32)⟩
      · intro _; trivial
    · simp only [Bool.not_eq_true] at h32
      simp only [h32, Bool.false_eq_true, if_false]
      by_cases h44 : (Mp.derive_bip44_addresses cfg O m p).1 = true
      · simp only [h44, if_pos]
        constructor
        · intro _
          exact ⟨p, by simp, Or.inr ((mp_derive44_true_iff cfg O m p).mp h44)⟩
        · intro _; trivial
      · simp only [Bool.not_eq_true] at h44
        simp only [h44, Bool.false_eq_true, if_false]
        rw [ih]
        constructor
        · rintro ⟨q, hq, h⟩; exact ⟨q, by simp [hq], h⟩
        · rintro ⟨q, hq, h⟩
          rcases List.mem_cons.mp hq with rfl | hq2
          · rcases h with h | h
            · exact absurd ((mp_derive32_true_iff cfg O m q).mpr h) (by simp [h32])
            · exact absurd ((mp_derive44_true_iff cfg O m q).mpr h) (by simp [h44])
          · exact ⟨q, hq2, h⟩

lemma mp_check_true_iff :
    (Mp.check_mnemonic cfg O m).1 = true ↔
      O.checksumOk m = true ∧ matchFound cfg O m := by
  unfold Mp.check_mnemonic matchFound
  cases hc : O.checksumOk m with
  | false => simp
  | true => simp [mp_checkPassLoop_true_iff]

end MpCheckLemmas

section Transfer

variable (O : Oracle) (tg : List String) (v : Bool) (m p : String)

lemma st_mp_bip32ScanIdx (path : String) :
    ∀ (idxs : List Nat) (msg : String),
      (St.bip32ScanIdx O tg v m p path idxs).1 =
          (Mp.bip32ScanIdx O tg m p path idxs msg).1 ∧
        (St.bip32ScanIdx O tg v m p path idxs).2.2 =
          (Mp.bip32ScanIdx O tg m p path idxs msg).2.2 := by
  intro idxs
  induction idxs with
  | nil => intro msg; simp [St.bip32ScanIdx, Mp.bip32ScanIdx]
  | cons i rest ih =>
    intro msg
    by_cases h : O.bip32Addr m p path i ∈ tg
    · simp [St.bip32ScanIdx, Mp.bip32ScanIdx, h]
    · simp only [St.bip32ScanIdx, Mp.bip32ScanIdx, if_neg h]
      have := ih (msg ++ "\n    BIP32 Address " ++ toString i ++ ": " ++ O.bip32Addr m p path i)
      simp [this.1, this.2]

lemma st_mp_bip32ScanPaths (n : Nat) :
    ∀ (paths : List String) (msg : String),
      (St.bip32ScanPaths O tg v n m p paths).1 =
          (Mp.bip32ScanPaths O tg n m p paths msg).1 ∧
        (St.bip32ScanPaths O tg v n m p paths).2.2 =
          (Mp.bip32ScanPaths O tg n m p paths msg).2.2 := by
  intro paths
  induction paths with
  | nil => intro msg; simp [St.bip32ScanPaths, Mp.bip32ScanPaths]
  | cons path rest ih =>
    intro msg
    have hin := st_mp_bip32ScanIdx O tg v m p path (List.range n)
      (msg ++ "\n  BIP32 Derivation path: " ++ path)
    simp only [St.bip32ScanPaths, Mp.bip32ScanPaths]
    cases ho : (Mp.bip32ScanIdx O tg m p path (List.range n)
        (msg ++ "\n  BIP32 Derivation path: " ++ path)).1 with
    | some a =>
      rw [ho] at hin
      simp [hin.1, hin.2, ho]
    | none =>
      rw [ho] at hin
      have hrec := ih (Mp.bip32ScanIdx O tg m p path (List.range n)
        (msg ++ "\n  BIP32 Derivation path: " ++ path)).2.1
      simp [hin.1, hin.2, hrec.1, hrec.2, ho]

lemma st_mp_bip44ScanIdx (a : Nat) :
    ∀ (idxs : List Nat) (msg : String),
      (St.bip44ScanIdx O tg v m p a idxs).1 =
          (Mp.bip44ScanIdx O tg m p a idxs msg).1 ∧
        (St.bip44ScanIdx O tg v m p a idxs).2.2 =
          (Mp.bip44ScanIdx O tg m p a idxs msg).2.2 := by
  intro idxs
  induction idxs with
  | nil => intro msg; simp [St.bip44ScanIdx, Mp.bip44ScanIdx]
  | cons j rest ih =>
    intro msg
    by_cases h : O.bip44Addr m p a j ∈ tg
    · simp [St.bip44ScanIdx, Mp.bip44ScanIdx, h]
    · simp only [St.bip44ScanIdx, Mp.bip44ScanIdx, if_neg h]
      have := ih (msg ++ "\n    BIP44 Address " ++ toString j ++ ": " ++ O.bip44Addr m p a j)
      simp [this.1, this.2]

lemma st_mp_bip44ScanAccounts (n : Nat) :
    ∀ (accs : List Nat) (msg : String),
      (St.bip44ScanAccounts O tg v n m p accs).1 =
          (Mp.bip44ScanAccounts O tg n m p accs msg).1 ∧
        (St.bip44ScanAccounts O tg v n m p accs).2.2 =
          (Mp.bip44ScanAccounts O tg n m p accs msg).2.2 := by
  intro accs
  induction accs with
  | nil => intro msg; simp [St.bip44ScanAccounts, Mp.bip44ScanAccounts]
  | cons a rest ih =>
    intro msg
    have hin := st_mp_bip44ScanIdx O tg v m p a (List.range n)
      (msg ++ "\n  BIP44 Account: " ++ toString a)
    simp only [St.bip44ScanAccounts, Mp.bip44ScanAccounts]
    cases ho : (Mp.bip44ScanIdx O tg m p a (List.range n)
        (msg ++ "\n  BIP44 Account: " ++ toString a)).1 with
    | some x =>
      rw [ho] at hin
      simp [hin.1, hin.2, ho]
    | none =>
      rw [ho] at hin
      have hrec := ih (Mp.bip44ScanIdx O tg m p a (List.range n)
        (msg ++ "\n  BIP44 Account: " ++ toString a)).2.1
      simp [hin.1, hin.2, hrec.1, hrec.2, ho]

variable (cfg : Config)

lemma st_mp_derive32 :
    (St.derive_bip32_addresses cfg O m p).1 = (Mp.derive_bip32_addresses cfg O m p).1 ∧
      (St.derive_bip32_addresses cfg O m p).2.2 = (Mp.derive_bip32_addresses cfg O m p).2.2 := by
  unfold St.derive_bip32_addresses Mp.derive_bip32_addresses
  cases hE : cfg.bip32Enabled with
  | false => simp
  | true =>
    simp only [if_pos rfl]
    have h := st_mp_bip32ScanPaths O cfg.addressesToSearch cfg.verbose m p cfg.bip32AddrNum
      cfg.bip32Paths ("Mnemonic: " ++ m ++ ", passphrase: " ++ p)
    cases ho : (Mp.bip32ScanPaths O cfg.addressesToSearch cfg.bip32AddrNum m p
        cfg.bip32Paths ("Mnemonic: " ++ m ++ ", passphrase: " ++ p)).1 with
    | some a =>
      rw [ho] at h
      simp [h.1, h.2, ho]
    | none =>
      rw [ho] at h
      simp [h.1, h.2, ho]

lemma st_mp_derive44 :
    (St.derive_bip44_addresses cfg O m p).1 = (Mp.derive_bip44_addresses cfg O m p).1 ∧
      (St.derive_bip44_addresses cfg O m p).2.2 = (Mp.derive_bip44_addresses cfg O m p).2.2 := by
  unfold St.derive_bip44_addresses Mp.derive_bip44_addresses
  cases hE : cfg.bip44Enabled with
  | false => simp
  | true =>
    simp only [if_pos rfl]
    have h := st_mp_bip44ScanAccounts O cfg.addressesToSearch cfg.verbose m p cfg.bip44AddrNum
      (List.range cfg.bip44AccountsNum) ("Mnemonic: " ++ m ++ ", passphrase: " ++ p)
    cases ho : (Mp.bip44ScanAccounts O cfg.addressesToSearch cfg.bip44AddrNum m p
        (List.range cfg.bip44AccountsNum) ("Mnemonic: " ++ m ++ ", passphrase: " ++ p)).1 with
    | some a =>
      rw [ho] at h
      simp [h.1, h.2, ho]
    | none =>
      rw [ho] at h
      simp [h.1, h.2, ho]

lemma st_mp_checkPassLoop :
    ∀ ps : List String,
      (St.checkPassLoop cfg O m ps).1 = (Mp.checkPassLoop cfg O m ps).1 ∧
        (St.checkPassLoop cfg O m ps).2.2 = (Mp.checkPassLoop cfg O m ps).2.2 := by
  intro ps
  induction ps with
  | nil => simp [St.checkPassLoop, Mp.checkPassLoop]
  | cons p rest ih =>
    have h32 := st_mp_derive32 O m p cfg
    have h44 := st_mp_derive44 O m p cfg
    simp only [St.checkPassLoop, Mp.checkPassLoop]
    by_cases hb32 : (Mp.derive_bip32_addresses cfg O m p).1 = true
    · simp [hb32, h32.1, h32.2]
    · simp only [Bool.not_eq_true] at hb32
      by_cases hb44 : (Mp.derive_bip44_addresses cfg O m p).1 = true
      · simp [hb32, hb44, h32.1, h32.2, h44.1, h44.2]
      · simp only [Bool.not_eq_true] at hb44
        simp [hb32, hb44, h32.1, h32.2, h44.1, h44.2, ih.1, ih.2]

lemma st_mp_check :
    (St.check_mnemonic cfg O m).1 = (Mp.check_mnemonic cfg O m).1 ∧
      (St.check_mnemonic cfg O m).2.2 = (Mp.check_mnemonic cfg O m).2.2 := by
  unfold St.check_mnemonic Mp.check_mnemonic
  cases hc : O.checksumOk m with
  | false => simp
  | true =>
    have := st_mp_checkPassLoop O m cfg cfg.passphrases
    simp [this.1, this.2]

end Transfer

section VerboseLemmas

variable (cfg : Config) (O : Oracle) (m p : String) (v : Bool)

lemma mp_derive32_verbose :
    (Mp.derive_bip32_addresses {cfg with verbose := v} O m p).1 =
        (Mp.derive_bip32_addresses cfg O m p).1 ∧
      (Mp.derive_bip32_addresses {cfg with verbose := v} O m p).2.2 =
        (Mp.derive_bip32_addresses cfg O m p).2.2 := by
  obtain ⟨e32, paths, n32, e44, nacc, n44, ps, tg, vb⟩ := cfg
  unfold Mp.derive_bip32_addresses
  cases e32 with
  | false => simp
  | true =>
    simp only [if_pos rfl]
    cases ho : (Mp.bip32ScanPaths O tg n32 m p paths
        ("Mnemonic: " ++ m ++ ", passphrase: " ++ p)).1 with
    | some a => simp [ho]
    | none => simp [ho]

lemma mp_derive44_verbose :
    (Mp.derive_bip44_addresses {cfg with verbose := v} O m p).1 =
        (Mp.derive_bip44_addresses cfg O m p).1 ∧
      (Mp.derive_bip44_addresses {cfg with verbose := v} O m p).2.2 =
        (Mp.derive_bip44_addresses cfg O m p).2.2 := by
  obtain ⟨e32, paths, n32, e44, nacc, n44, ps, tg, vb⟩ := cfg
  unfold Mp.derive_bip44_addresses
  cases e44 with
  | false => simp
  | true =>
    simp only [if_pos rfl]
    cases ho : (Mp.bip44ScanAccounts O tg n44 m p (List.range nacc)
        ("Mnemonic: " ++ m ++ ", passphrase: " ++ p)).1 with
    | some a => simp [ho]
    | none => simp [ho]

lemma mp_checkPassLoop_verbose :
    ∀ ps1 : List String,
      (Mp.checkPassLoop {cfg with verbose := v} O m ps1).1 =
          (Mp.checkPassLoop cfg O m ps1).1 ∧
        (Mp.checkPassLoop {cfg with verbose := v} O m ps1).2.2 =
          (Mp.checkPassLoop cfg O m ps1).2.2 := by
  intro ps1
  induction ps1 with
  | nil => simp [Mp.checkPassLoop]
  | cons q rest ih =>
    have h32 := mp_derive32_verbose cfg O m q v
    have h44 := mp_derive44_verbose cfg O m q v
    simp only [Mp.checkPassLoop]
    by_cases hb32 : (Mp.derive_bip32_addresses cfg O m q).1 = true
    · simp [hb32, h32.1, h32.2]
    · simp only [Bool.not_eq_true] at hb32
      by_cases hb44 : (Mp.derive_bip44_addresses cfg O m q).1 = true
      · simp [hb32, hb44, h32.1, h32.2, h44.1, h44.2]
      · simp only [Bool.not_eq_true] at hb44
        simp [hb32, hb44, h32.1, h32.2, h44.1, h44.2, ih.1, ih.2]

lemma mp_check_verbose :
    (Mp.check_mnemonic {cfg with verbose := v} O m).1 =
        (Mp.check_mnemonic cfg O m).1 ∧
      (Mp.check_mnemonic {cfg with verbose := v} O m).2.2 =
        (Mp.check_mnemonic cfg O m).2.2 := by
  unfold Mp.check_mnemonic
  cases hc : O.checksumOk m with
  | false => simp
  | true =>
    have h := mp_checkPassLoop_verbose cfg O m v cfg.passphrases
    simpa using h

end VerboseLemmas

section MpTraceLemmas

variable (O : Oracle) (tg : List String) (m p : String)

lemma mp_scanIdx32_none (path : String) :
    ∀ (idxs : List Nat) (msg : String),
      (Mp.bip32ScanIdx O tg m p path idxs msg).1 = none →
      ∀ x ∈ (Mp.bip32ScanIdx O tg m p path idxs msg).2.2, x.addr ∉ tg ∧ x.pass = p := by
  intro idxs
  induction idxs with
  | nil => intro msg _; simp [Mp.bip32ScanIdx]
  | cons i rest ih =>
    intro msg hnone x hx
    by_cases h : O.bip32Addr m p path i ∈ tg
    · rw [Mp.bip32ScanIdx] at hnone
      simp [h] at hnone
    · rw [Mp.bip32ScanIdx] at hx
      simp only [if_neg h] at hx
      rcases List.mem_cons.mp hx with rfl | hx2
      · exact ⟨by simpa [Ev.addr] using h, by simp [Ev.pass]⟩
      · rw [Mp.bip32ScanIdx] at hnone
        simp only [if_neg h] at hnone
        exact ih _ hnone x hx2

lemma mp_scanIdx32_some (path : String) :
    ∀ (idxs : List Nat) (msg : String) (a : String),
      (Mp.bip32ScanIdx O tg m p path idxs msg).1 = some a →
      a ∈ tg ∧ (∃ i ∈ idxs, a = O.bip32Addr m p path i) ∧
        ∃ pre e, (Mp.bip32ScanIdx O tg m p path idxs msg).2.2 = pre ++ [e] ∧
          e.addr = a ∧ e.pass = p ∧ ∀ x ∈ pre, x.addr ∉ tg ∧ x.pass = p := by
  intro idxs
  induction idxs with
  | nil => intro msg a h; simp [Mp.bip32ScanIdx] at h
  | cons i rest ih =>
    intro msg a hsome
    by_cases h : O.bip32Addr m p path i ∈ tg
    · rw [Mp.bip32ScanIdx] at hsome ⊢
      rw [if_pos h] at hsome ⊢
      have ha : O.bip32Addr m p path i = a := Option.some.inj hsome
      subst ha
      refine ⟨h, ⟨i, by simp, rfl⟩, [], Ev.bip32 p path i (O.bip32Addr m p path i),
        by simp, by simp [Ev.addr], by simp [Ev.pass], by simp⟩
    · rw [Mp.bip32ScanIdx] at hsome ⊢
      simp only [if_neg h] at hsome ⊢
      obtain ⟨ha, ⟨i2, hi2, hieq⟩, pre, e, hevs, hea, hep, hpre⟩ := ih _ a hsome
      refine ⟨ha, ⟨i2, by simp [hi2], hieq⟩,
        Ev.bip32 p path i (O.bip32Addr m p path i) :: pre, e, by simp [hevs], hea, hep, ?_⟩
      intro x hx
      rcases List.mem_cons.mp hx with rfl | hx2
      · exact ⟨by simpa [Ev.addr] using h, by simp [Ev.pass]⟩
      · exact hpre x hx2

lemma mp_scanPaths32_none (n : Nat) :
    ∀ (paths : List String) (msg : String),
      (Mp.bip32ScanPaths O tg n m p paths msg).1 = none →
      ∀ x ∈ (Mp.bip32ScanPaths O tg n m p paths msg).2.2, x.addr ∉ tg ∧ x.pass = p := by
  intro paths
  induction paths with
  | nil => intro msg _; simp [Mp.bip32ScanPaths]
  | cons path rest ih =>
    intro msg hnone x hx
    rw [Mp.bip32ScanPaths] at hnone hx
    cases ho : (Mp.bip32ScanIdx O tg m p path (List.range n)
        (msg ++ "\n  BIP32 Derivation path: " ++ path)).1 with
    | some a => simp [ho] at hnone
    | none =>
      simp only [ho] at hnone hx
      rcases List.mem_append.mp hx with hx1 | hx2
      · exact mp_scanIdx32_none O tg m p path (List.range n) _ ho x hx1
      · exact ih _ hnone x hx2

lemma mp_scanPaths32_some (n : Nat) :
    ∀ (paths : List String) (msg : String) (a : String),
      (Mp.bip32ScanPaths O tg n m p paths msg).1 = some a →
      a ∈ tg ∧ (∃ path ∈ paths, ∃ i < n, a = O.bip32Addr m p path i) ∧
        ∃ pre e, (Mp.bip32ScanPaths O tg n m p paths msg).2.2 = pre ++ [e] ∧
          e.addr = a ∧ e.pass = p ∧ ∀ x ∈ pre, x.addr ∉ tg ∧ x.pass = p := by
  intro paths
  induction paths with
  | nil => intro msg a h; simp [Mp.bip32ScanPaths] at h
  | cons path rest ih =>
    intro msg a hsome
    rw [Mp.bip32ScanPaths] at hsome ⊢
    cases ho : (Mp.bip32ScanIdx O tg m p path (List.range n)
        (msg ++ "\n  BIP32 Derivation path: " ++ path)).1 with
    | some b =>
      simp only [ho] at hsome ⊢
      have hb : b = a := Option.some.inj hsome
      subst hb
      obtain ⟨ha, ⟨i, hi, hieq⟩, pre, e, hevs, hea, hep, hpre⟩ :=
        mp_scanIdx32_some O tg m p path (List.range n) _ b ho
      exact ⟨ha, ⟨path, by simp, i, by simpa [List.mem_range] using hi, hieq⟩,
        pre, e, hevs, hea, hep, hpre⟩
    | none =>
      simp only [ho] at hsome ⊢
      obtain ⟨ha, ⟨path2, hpath2, i, hi, hieq⟩, pre, e, hevs, hea, hep, hpre⟩ :=
        ih _ a hsome
      refine ⟨ha, ⟨path2, by simp [hpath2], i, hi, hieq⟩,
        (Mp.bip32ScanIdx O tg m p path (List.range n)
          (msg ++ "\n  BIP32 Derivation path: " ++ path)).2.2 ++ pre, e,
        by simp [hevs], hea, hep, ?_⟩
      intro x hx
      rcases List.mem_append.mp hx with hx1 | hx2
      · exact mp_scanIdx32_none O tg m p path (List.range n) _ ho x hx1
      · exact hpre x hx2

lemma mp_scanIdx44_none (a : Nat) :
    ∀ (idxs : List Nat) (msg : String),
      (Mp.bip44ScanIdx O tg m p a idxs msg).1 = none →
      ∀ x ∈ (Mp.bip44ScanIdx O tg m p a idxs msg).2.2, x.addr ∉ tg ∧ x.pass = p := by
  intro idxs
  induction idxs with
  | nil => intro msg _; simp [Mp.bip44ScanIdx]
  | cons j rest ih =>
    intro msg hnone x hx
    by_cases h : O.bip44Addr m p a j ∈ tg
    · rw [Mp.bip44ScanIdx] at hnone
      simp [h] at hnone
    · rw [Mp.bip44ScanIdx] at hx
      simp only [if_neg h] at hx
      rcases List.mem_cons.mp hx with rfl | hx2
      · exact ⟨by simpa [Ev.addr] using h, by simp [Ev.pass]⟩
      · rw [Mp.bip44ScanIdx] at hnone
        simp only [if_neg h] at hnone
        exact ih _ hnone x hx2

lemma mp_scanIdx44_some (a : Nat) :
    ∀ (idxs : List Nat) (msg : String) (b : String),
      (Mp.bip44ScanIdx O tg m p a idxs msg).1 = some b →
      b ∈ tg ∧ (∃ j ∈ idxs, b = O.bip44Addr m p a j) ∧
        ∃ pre e, (Mp.bip44ScanIdx O tg m p a idxs msg).2.2 = pre ++ [e] ∧
          e.addr = b ∧ e.pass = p ∧ ∀ x ∈ pre, x.addr ∉ tg ∧ x.pass = p := by
  intro idxs
  induction idxs with
  | nil => intro msg b h; simp [Mp.bip44ScanIdx] at h
  | cons j rest ih =>
    intro msg b hsome
    by_cases h : O.bip44Addr m p a j ∈ tg
    · rw [Mp.bip44ScanIdx] at hsome ⊢
      rw [if_pos h] at hsome ⊢
      have hb : O.bip44Addr m p a j = b := Option.some.inj hsome
      subst hb
      refine ⟨h, ⟨j, by simp, rfl⟩, [], Ev.bip44 p a j (O.bip44Addr m p a j),
        by simp, by simp [Ev.addr], by simp [Ev.pass], by simp⟩
    · rw [Mp.bip44ScanIdx] at hsome ⊢
      simp only [if_neg h] at hsome ⊢
      obtain ⟨hb, ⟨j2, hj2, hjeq⟩, pre, e, hevs, hea, hep, hpre⟩ := ih _ b hsome
      refine ⟨hb, ⟨j2, by simp [hj2], hjeq⟩,
        Ev.bip44 p a j (O.bip44Addr m p a j) :: pre, e, by simp [hevs], hea, hep, ?_⟩
      intro x hx
      rcases List.mem_cons.mp hx with rfl | hx2
      · exact ⟨by simpa [Ev.addr] using h, by simp [Ev.pass]⟩
      · exact hpre x hx2

lemma mp_scanAccounts44_none (n : Nat) :
    ∀ (accs : List Nat) (msg : String),
      (Mp.bip44ScanAccounts O tg n m p accs msg).1 = none →
      ∀ x ∈ (Mp.bip44ScanAccounts O tg n m p accs msg).2.2, x.addr ∉ tg ∧ x.pass = p := by
  intro accs
  induction accs with
  | nil => intro msg _; simp [Mp.bip44ScanAccounts]
  | cons a rest ih =>
    intro msg hnone x hx
    rw [Mp.bip44ScanAccounts] at hnone hx
    cases ho : (Mp.bip44ScanIdx O tg m p a (List.range n)
        (msg ++ "\n  BIP44 Account: " ++ toString a)).1 with
    | some b => simp [ho] at hnone
    | none =>
      simp only [ho] at hnone hx
      rcases List.mem_append.mp hx with hx1 | hx2
      · exact mp_scanIdx44_none O tg m p a (List.range n) _ ho x hx1
      · exact ih _ hnone x hx2

lemma mp_scanAccounts44_some (n : Nat) :
    ∀ (accs : List Nat) (msg : String) (b : String),
      (Mp.bip44ScanAccounts O tg n m p accs msg).1 = some b →
      b ∈ tg ∧ (∃ a ∈ accs, ∃ j < n, b = O.bip44Addr m p a j) ∧
        ∃ pre e, (Mp.bip44ScanAccounts O tg n m p accs msg).2.2 = pre ++ [e] ∧
          e.addr = b ∧ e.pass = p ∧ ∀ x ∈ pre, x.addr ∉ tg ∧ x.pass = p := by
  intro accs
  induction accs with
  | nil => intro msg b h; simp [Mp.bip44ScanAccounts] at h
  | cons a rest ih =>
    intro msg b hsome
    rw [Mp.bip44ScanAccounts] at hsome ⊢
    cases ho : (Mp.bip44ScanIdx O tg m p a (List.range n)
        (msg ++ "\n  BIP44 Account: " ++ toString a)).1 with
    | some c =>
      simp only [ho] at hsome ⊢
      have hc : c = b := Option.some.inj hsome
      subst hc
      obtain ⟨hb, ⟨j, hj, hjeq⟩, pre, e, hevs, hea, hep, hpre⟩ :=
        mp_scanIdx44_some O tg m p a (List.range n) _ c ho
      exact ⟨hb, ⟨a, by simp, j, by simpa [List.mem_range] using hj, hjeq⟩,
        pre, e, hevs, hea, hep, hpre⟩
    | none =>
      simp only [ho] at hsome ⊢
      obtain ⟨hb, ⟨a2, ha2, j, hj, hjeq⟩, pre, e, hevs, hea, hep, hpre⟩ :=
        ih _ b hsome
      refine ⟨hb, ⟨a2, by simp [ha2], j, hj, hjeq⟩,
        (Mp.bip44ScanIdx O tg m p a (List.range n)
          (msg ++ "\n  BIP44 Account: " ++ toString a)).2.2 ++ pre, e,
        by simp [hevs], hea, hep, ?_⟩
      intro x hx
      rcases List.mem_append.mp hx with hx1 | hx2
      · exact mp_scanIdx44_none O tg m p a (List.range n) _ ho x hx1
      · exact hpre x hx2

end MpTraceLemmas

section MpDeriveEvidence

variable (cfg : Config) (O : Oracle) (m p : String)

lemma mp_derive32_false :
    (Mp.derive_bip32_addresses cfg O m p).1 = false →
    ∀ x ∈ (Mp.derive_bip32_addresses cfg O m p).2.2,
      x.addr ∉ cfg.addressesToSearch ∧ x.pass = p := by
  intro hf
  unfold Mp.derive_bip32_addresses at hf ⊢
  cases hE : cfg.bip32Enabled with
  | false => simp [hE]
  | true =>
    rw [hE] at hf
    simp only [if_pos rfl] at hf ⊢
    cases ho : (Mp.bip32ScanPaths O cfg.addressesToSearch cfg.bip32AddrNum m p
        cfg.bip32Paths ("Mnemonic: " ++ m ++ ", passphrase: " ++ p)).1 with
    | some a => simp [ho] at hf
    | none =>
      simp only [ho]
      exact mp_scanPaths32_none O cfg.addressesToSearch m p cfg.bip32AddrNum
        cfg.bip32Paths _ ho

lemma mp_derive32_true :
    (Mp.derive_bip32_addresses cfg O m p).1 = true →
    ∃ a, a ∈ cfg.addressesToSearch ∧ bip32Evidence cfg O m p a ∧
      (Mp.derive_bip32_addresses cfg O m p).2.1 = [Mp.foundMsg a m p] ∧
      ∃ pre e, (Mp.derive_bip32_addresses cfg O m p).2.2 = pre ++ [e] ∧
        e.addr = a ∧ e.pass = p ∧
        ∀ x ∈ pre, x.addr ∉ cfg.addressesToSearch ∧ x.pass = p := by
  intro ht
  unfold Mp.derive_bip32_addresses at ht ⊢
  cases hE : cfg.bip32Enabled with
  | false => rw [hE] at ht; simp at ht
  | true =>
    rw [hE] at ht
    simp only [if_pos rfl] at ht ⊢
    cases ho : (Mp.bip32ScanPaths O cfg.addressesToSearch cfg.bip32AddrNum m p
        cfg.bip32Paths ("Mnemonic: " ++ m ++ ", passphrase: " ++ p)).1 with
    | some a =>
      obtain ⟨ha, hex, pre, e, hevs, hea, hep, hpre⟩ :=
        mp_scanPaths32_some O cfg.addressesToSearch m p cfg.bip32AddrNum
          cfg.bip32Paths _ a ho
      exact ⟨a, ha, ⟨hE, hex⟩, by simp [ho], pre, e, by simp [ho, hevs], hea, hep, hpre⟩
    | none => simp [ho] at ht

lemma mp_derive44_false :
    (Mp.derive_bip44_addresses cfg O m p).1 = false →
    ∀ x ∈ (Mp.derive_bip44_addresses cfg O m p).2.2,
      x.addr ∉ cfg.addressesToSearch ∧ x.pass = p := by
  intro hf
  unfold Mp.derive_bip44_addresses at hf ⊢
  cases hE : cfg.bip44Enabled with
  | false => simp [hE]
  | true =>
    rw [hE] at hf
    simp only [if_pos rfl] at hf ⊢
    cases ho : (Mp.bip44ScanAccounts O cfg.addressesToSearch cfg.bip44AddrNum m p
        (List.range cfg.bip44AccountsNum) ("Mnemonic: " ++ m ++ ", passphrase: " ++ p)).1 with
    | some a => simp [ho] at hf
    | none =>
      simp only [ho]
      exact mp_scanAccounts44_none O cfg.addressesToSearch m p cfg.bip44AddrNum
        (List.range cfg.bip44AccountsNum) _ ho

lemma mp_derive44_true :
    (Mp.derive_bip44_addresses cfg O m p).1 = true →
    ∃ a, a ∈ cfg.addressesToSearch ∧ bip44Evidence cfg O m p a ∧
      (Mp.derive_bip44_addresses cfg O m p).2.1 = [Mp.foundMsg a m p] ∧
      ∃ pre e, (Mp.derive_bip44_addresses cfg O m p).2.2 = pre ++ [e] ∧
        e.addr = a ∧ e.pass = p ∧
        ∀ x ∈ pre, x.addr ∉ cfg.addressesToSearch ∧ x.pass = p := by
  intro ht
  unfold Mp.derive_bip44_addresses at ht ⊢
  cases hE : cfg.bip44Enabled with
  | false => rw [hE] at ht; simp at ht
  | true =>
    rw [hE] at ht
    simp only [if_pos rfl] at ht ⊢
    cases ho : (Mp.bip44ScanAccounts O cfg.addressesToSearch cfg.bip44AddrNum m p
        (List.range cfg.bip44AccountsNum) ("Mnemonic: " ++ m ++ ", passphrase: " ++ p)).1 with
    | some a =>
      obtain ⟨ha, hex, pre, e, hevs, hea, hep, hpre⟩ :=
        mp_scanAccounts44_some O cfg.addressesToSearch m p cfg.bip44AddrNum
          (List.range cfg.bip44AccountsNum) _ a ho
      refine ⟨a, ha, ⟨hE, ?_⟩, by simp [ho], pre, e, by simp [ho, hevs], hea, hep, hpre⟩
      obtain ⟨acc, hacc, j, hj, hjeq⟩ := hex
      exact ⟨acc, by simpa [List.mem_range] using hacc, j, hj, hjeq⟩
    | none => simp [ho] at ht

end MpDeriveEvidence

section MpLoopEvidence

variable (cfg : Config) (O : Oracle) (m : String)

lemma getLast?_append_some {α : Type} {l₂ : List α} {x : α} (l₁ : List α)
    (h : l₂.getLast? = some x) : (l₁ ++ l₂).getLast? = some x :=
  Option.mem_def.mp (List.mem_getLast?_append_of_mem_getLast? (Option.mem_def.mpr h))

lemma mp_checkPassLoop_evidence :
    ∀ ps : List String, (Mp.checkPassLoop cfg O m ps).1 = true →
      ∃ ppre p psuf a pre e,
        ps = ppre ++ p :: psuf ∧
        a ∈ cfg.addressesToSearch ∧
        (bip32Evidence cfg O m p a ∨ bip44Evidence cfg O m p a) ∧
        (Mp.checkPassLoop cfg O m ps).2.1.getLast? = some (Mp.foundMsg a m p) ∧
        (Mp.checkPassLoop cfg O m ps).2.2 = pre ++ [e] ∧
        e.addr = a ∧ e.pass = p ∧
        ∀ x ∈ pre, x.addr ∉ cfg.addressesToSearch ∧ x.pass ∈ ppre ++ [p] := by
  intro ps
  induction ps with
  | nil => intro h; simp [Mp.checkPassLoop] at h
  | cons q rest ih =>
    intro ht
    by_cases hb32 : (Mp.derive_bip32_addresses cfg O m q).1 = true
    · obtain ⟨a, ha, hev, hlog, pre, e, hevs, hea, hep, hpre⟩ :=
        mp_derive32_true cfg O m q hb32
      refine ⟨[], q, rest, a, pre, e, by simp, ha, Or.inl hev, ?_, ?_, hea, hep, ?_⟩
      · simp only [Mp.checkPassLoop, hb32, if_true]
        simp [hlog]
      · simp only [Mp.checkPassLoop, hb32, if_true]
        exact hevs
      · intro x hx
        exact ⟨(hpre x hx).1, by simp [(hpre x hx).2]⟩
    · simp only [Bool.not_eq_true] at hb32
      by_cases hb44 : (Mp.derive_bip44_addresses cfg O m q).1 = true
      · obtain ⟨a, ha, hev, hlog, pre, e, hevs, hea, hep, hpre⟩ :=
          mp_derive44_true cfg O m q hb44
        have h32f := mp_derive32_false cfg O m q hb32
        refine ⟨[], q, rest, a,
          (Mp.derive_bip32_addresses cfg O m q).2.2 ++ pre, e, by simp, ha,
          Or.inr hev, ?_, ?_, hea, hep, ?_⟩
        · simp only [Mp.checkPassLoop, hb32, Bool.false_eq_true, if_false, hb44, if_true]
          rw [hlog]
          exact getLast?_append_some _ rfl
        · simp only [Mp.checkPassLoop, hb32, Bool.false_eq_true, if_false, hb44, if_true]
          simp [hevs]
        · intro x hx
          rcases List.mem_append.mp hx with hx1 | hx2
          · exact ⟨(h32f x hx1).1, by simp [(h32f x hx1).2]⟩
          · exact ⟨(hpre x hx2).1, by simp [(hpre x hx2).2]⟩
      · simp only [Bool.not_eq_true] at hb44
        have hrec : (Mp.checkPassLoop cfg O m rest).1 = true := by
          rw [Mp.checkPassLoop] at ht
          simpa [hb32, hb44] using ht
        obtain ⟨ppre, p, psuf, a, pre, e, hps, ha, hev, hlog, hevs, hea, hep, hpre⟩ :=
          ih hrec
        have h32f := mp_derive32_false cfg O m q hb32
        have h44f := mp_derive44_false cfg O m q hb44
        refine ⟨q :: ppre, p, psuf, a,
          (Mp.derive_bip32_addresses cfg O m q).2.2 ++
            (Mp.derive_bip44_addresses cfg O m q).2.2 ++ pre, e,
          by simp [hps], ha, hev, ?_, ?_, hea, hep, ?_⟩
        · simp only [Mp.checkPassLoop, hb32, Bool.false_eq_true, if_false, hb44]
          rw [List.append_assoc]
          exact getLast?_append_some _ (getLast?_append_some _ hlog)
        · simp only [Mp.checkPassLoop, hb32, Bool.false_eq_true, if_false, hb44]
          simp [hevs]
        · intro x hx
          rcases List.mem_append.mp hx with hx12 | hx3
          · rcases List.mem_append.mp hx12 with hx1 | hx2
            · exact ⟨(h32f x hx1).1, by simp [(h32f x hx1).2]⟩
            · exact ⟨(h44f x hx2).1, by simp [(h44f x hx2).2]⟩
          · refine ⟨(hpre x hx3).1, ?_⟩
            have := (hpre x hx3).2
            simp only [List.cons_append, List.mem_cons]
            right
            exact this

end MpLoopEvidence

/-- A concrete configuration in the shape of the shipped one: two derivation
paths, one address per path, one account and one address for BIP44, the two
passphrases empty and test, two target addresses, verbose on. -/
def wCfg : Config :=
  { bip32Enabled := true
    bip32Paths := ["p0", "p1"]
    bip32AddrNum := 1
    bip44Enabled := true
    bip44AccountsNum := 1
    bip44AddrNum := 1
    passphrases := ["", "test"]
    addressesToSearch := ["addrA", "addrB"]
    verbose := true }

/-- A concrete oracle whose BIP32 derivation hits the target set at the empty
passphrase (any path, any index) and misses everywhere else. -/
def wOracleHit : Oracle :=
  { checksumOk := fun _ => true
    bip32Addr := fun _ p _ _ => if p = "" then "addrA" else "x"
    bip44Addr := fun _ _ _ _ => "y" }

/-- A concrete oracle that fails the checksum validation on every candidate. -/
def wOracleBad : Oracle :=
  { checksumOk := fun _ => false
    bip32Addr := fun _ _ _ _ => "x"
    bip44Addr := fun _ _ _ _ => "y" }

/-- Claim C1: check_mnemonic (in both variants) returns a match exactly when
the candidate passes the external checksum validation and some configured
passphrase, under some enabled derivation scheme at some in-range path,
account and address index, derives an identifier that is a member of the
target set.  The right-hand side is an order-independent existence statement,
so the scanning order can only influence which match is reported first, never
whether a match is found. -/
theorem c1_check_match_iff (cfg : Config) (O : Oracle) (m : String) :
    ((Mp.check_mnemonic cfg O m).1 = true ↔
      O.checksumOk m = true ∧ matchFound cfg O m) ∧
    ((St.check_mnemonic cfg O m).1 = true ↔
      O.checksumOk m = true ∧ matchFound cfg O m) := by
  refine ⟨mp_check_true_iff cfg O m, ?_⟩
  rw [(st_mp_check O m cfg).1]
  exact mp_check_true_iff cfg O m

/-- Claim C9: the single-flow variant and the parallel variant return the
same boolean match decision on every candidate, for every configuration and
every deterministic external checksum and derivation oracle. -/
theorem c9_variant_equivalence (cfg : Config) (O : Oracle) (m : String) :
    (St.check_mnemonic cfg O m).1 = (Mp.check_mnemonic cfg O m).1 :=
  (st_mp_check O m cfg).1

/-- Claim C7: a candidate failing the checksum filter yields the no-match
result with zero derivation calls (the derived-address trace is empty, so
neither scheme was invoked) and no log output; the checksum failure is
absorbed, not propagated as an error (both functions are total and return
the plain no-match triple). -/
theorem c7_checksum_reject (cfg : Config) (O : Oracle) (m : String)
    (h : O.checksumOk m = false) :
    Mp.check_mnemonic cfg O m = (false, [], []) ∧
      St.check_mnemonic cfg O m = (false, [], []) := by
  unfold Mp.check_mnemonic St.check_mnemonic
  simp [h]

/-- Witness for C7 at a concrete input. -/
theorem c7_checksum_reject_witness :
    wOracleBad.checksumOk "mnem" = false ∧
      (Mp.check_mnemonic wCfg wOracleBad "mnem" = (false, [], []) ∧
        St.check_mnemonic wCfg wOracleBad "mnem" = (false, [], [])) :=
  ⟨rfl, c7_checksum_reject wCfg wOracleBad "mnem" rfl⟩

/-- Claim C10: the match decision and the derived-address trace of
check_mnemonic, derive_bip32_addresses and derive_bip44_addresses, in both
variants, do not depend on the VERBOSE flag: verbosity only controls which
diagnostic messages are emitted, never which identifiers are derived or
compared. -/
theorem c10_verbose_independent (cfg : Config) (O : Oracle) (m p : String) (v₁ v₂ : Bool) :
    ((Mp.check_mnemonic { cfg with verbose := v₁ } O m).1 =
        (Mp.check_mnemonic { cfg with verbose := v₂ } O m).1 ∧
      (Mp.check_mnemonic { cfg with verbose := v₁ } O m).2.2 =
        (Mp.check_mnemonic { cfg with verbose := v₂ } O m).2.2) ∧
    ((St.check_mnemonic { cfg with verbose := v₁ } O m).1 =
        (St.check_mnemonic { cfg with verbose := v₂ } O m).1 ∧
      (St.check_mnemonic { cfg with verbose := v₁ } O m).2.2 =
        (St.check_mnemonic { cfg with verbose := v₂ } O m).2.2) ∧
    ((Mp.derive_bip32_addresses { cfg with verbose := v₁ } O m p).1 =
        (Mp.derive_bip32_addresses { cfg with verbose := v₂ } O m p).1 ∧
      (Mp.derive_bip44_addresses { cfg with verbose := v₁ } O m p).1 =
        (Mp.derive_bip44_addresses { cfg with verbose := v₂ } O m p).1) ∧
    ((St.derive_bip32_addresses { cfg with verbose := v₁ } O m p).1 =
        (St.derive_bip32_addresses { cfg with verbose := v₂ } O m p).1 ∧
      (St.derive_bip44_addresses { cfg with verbose := v₁ } O m p).1 =
        (St.derive_bip44_addresses { cfg with verbose := v₂ } O m p).1) := by
  have hm1 := mp_check_verbose cfg O m v₁
  have hm2 := mp_check_verbose cfg O m v₂
  have hs1 := st_mp_check O m { cfg with verbose := v₁ }
  have hs2 := st_mp_check O m { cfg with verbose := v₂ }
  have hd321 := mp_derive32_verbose cfg O m p v₁
  have hd322 := mp_derive32_verbose cfg O m p v₂
  have hd441 := mp_derive44_verbose cfg O m p v₁
  have hd442 := mp_derive44_verbose cfg O m p v₂
  have hsd321 := st_mp_derive32 O m p { cfg with verbose := v₁ }
  have hsd322 := st_mp_derive32 O m p { cfg with verbose := v₂ }
  have hsd441 := st_mp_derive44 O m p { cfg with verbose := v₁ }
  have hsd442 := st_mp_derive44 O m p { cfg with verbose := v₂ }
  refine ⟨⟨?_, ?_⟩, ⟨?_, ?_⟩, ⟨?_, ?_⟩, ⟨?_, ?_⟩⟩
  · rw [hm1.1, hm2.1]
  · rw [hm1.2, hm2.2]
  · rw [hs1.1, hs2.1, hm1.1, hm2.1]
  · rw [hs1.2, hs2.2, hm1.2, hm2.2]
  · rw [hd321.1, hd322.1]
  · rw [hd441.1, hd442.1]
  · rw [hsd321.1, hsd322.1, hd321.1, hd322.1]
  · rw [hsd441.1, hsd442.1, hd441.1, hd442.1]

/-- Claim C2: when check_mnemonic reports a match, there is evidence: a
configured passphrase p and an identifier a in the target set, derived for
this candidate under p by one of the enabled schemes at in-range indices,
and the last log record emitted for the candidate is the Found record naming
exactly that identifier, the candidate and the passphrase.  When it reports
no match the result carries no Found record, so the result is either no
match or match with evidence. -/
theorem c2_match_result_evidence (cfg : Config) (O : Oracle) (m : String)
    (h : (Mp.check_mnemonic cfg O m).1 = true) :
    ∃ p a, p ∈ cfg.passphrases ∧ a ∈ cfg.addressesToSearch ∧
      (bip32Evidence cfg O m p a ∨ bip44Evidence cfg O m p a) ∧
      (Mp.check_mnemonic cfg O m).2.1.getLast? = some (Mp.foundMsg a m p) := by
  have hc : O.checksumOk m = true := by
    rcases hck : O.checksumOk m with _ | _
    · rw [Mp.check_mnemonic, hck] at h
      simp at h
    · rfl
  have hloop : (Mp.checkPassLoop cfg O m cfg.passphrases).1 = true := by
    rw [Mp.check_mnemonic, hc] at h
    simpa using h
  obtain ⟨ppre, p, psuf, a, pre, e, hps, ha, hev, hlog, _, _, _, _⟩ :=
    mp_checkPassLoop_evidence cfg O m cfg.passphrases hloop
  refine ⟨p, a, by simp [hps], ha, hev, ?_⟩
  rw [Mp.check_mnemonic, hc]
  simpa using hlog

/-- Witness for C2 at a concrete input: the candidate matches at passphrase
empty with identifier addrA. -/
theorem c2_match_result_evidence_witness :
    (Mp.check_mnemonic wCfg wOracleHit "mnem").1 = true ∧
      (∃ p a, p ∈ wCfg.passphrases ∧ a ∈ wCfg.addressesToSearch ∧
        (bip32Evidence wCfg wOracleHit "mnem" p a ∨
          bip44Evidence wCfg wOracleHit "mnem" p a) ∧
        (Mp.check_mnemonic wCfg wOracleHit "mnem").2.1.getLast? =
          some (Mp.foundMsg a "mnem" p)) :=
  ⟨by decide, c2_match_result_evidence wCfg wOracleHit "mnem" (by decide)⟩

/-- Claim C6: when check_mnemonic reports a match, the derivation trace ends
at the matching identifier: the trace is pre ++ [e] where e is the only hit,
every earlier derived identifier missed the target set, and every derived
identifier (including the hit) was derived under the matching passphrase or
one configured before it.  In particular nothing is derived after the first
match, and a later passphrase such as test is never evaluated once an
earlier one already matched. -/
theorem c6_short_circuit (cfg : Config) (O : Oracle) (m : String)
    (h : (Mp.check_mnemonic cfg O m).1 = true) :
    ∃ ppre p psuf pre e,
      cfg.passphrases = ppre ++ p :: psuf ∧
      (Mp.check_mnemonic cfg O m).2.2 = pre ++ [e] ∧
      e.pass = p ∧ e.addr ∈ cfg.addressesToSearch ∧
      ∀ x ∈ pre, x.addr ∉ cfg.addressesToSearch ∧ x.pass ∈ ppre ++ [p] := by
  have hc : O.checksumOk m = true := by
    rcases hck : O.checksumOk m with _ | _
    · rw [Mp.check_mnemonic, hck] at h
      simp at h
    · rfl
  have hloop : (Mp.checkPassLoop cfg O m cfg.passphrases).1 = true := by
    rw [Mp.check_mnemonic, hc] at h
    simpa using h
  obtain ⟨ppre, p, psuf, a, pre, e, hps, ha, _, _, hevs, hea, hep, hpre⟩ :=
    mp_checkPassLoop_evidence cfg O m cfg.passphrases hloop
  refine ⟨ppre, p, psuf, pre, e, hps, ?_, hep, by rw [hea]; exact ha, hpre⟩
  rw [Mp.check_mnemonic, hc]
  simpa using hevs

/-- Witness for C6 at a concrete input: the match occurs at the empty
passphrase, so the configured later passphrase test is never derived. -/
theorem c6_short_circuit_witness :
    (Mp.check_mnemonic wCfg wOracleHit "mnem").1 = true ∧
      (∃ ppre p psuf pre e,
        wCfg.passphrases = ppre ++ p :: psuf ∧
        (Mp.check_mnemonic wCfg wOracleHit "mnem").2.2 = pre ++ [e] ∧
        e.pass = p ∧ e.addr ∈ wCfg.addressesToSearch ∧
        ∀ x ∈ pre, x.addr ∉ wCfg.addressesToSearch ∧ x.pass ∈ ppre ++ [p]) :=
  ⟨by decide, c6_short_circuit wCfg wOracleHit "mnem" (by decide)⟩

/-- Claim C8: the reported candidate-space size is the product of the slot
cardinalities, or one for a fixed candidate; the reported total address
count is the candidate-space size times the number of passphrases times the
sum of the per-scheme address counts (paths times addresses per path when
BIP32 is enabled, accounts times addresses per account when BIP44 is
enabled, zero for a disabled scheme); and the two variants report the same
totals. -/
theorem c8_totals (cfg : Config) (fixed : String) (words : List (List String)) :
    Mp.get_total_mnemonic_combinations fixed words =
        (if fixed ≠ "" then 1 else (words.map List.length).prod) ∧
      Mp.get_total_addresses cfg fixed words =
        Mp.get_total_mnemonic_combinations fixed words * cfg.passphrases.length *
          ((if cfg.bip32Enabled then cfg.bip32Paths.length * cfg.bip32AddrNum else 0) +
            (if cfg.bip44Enabled then cfg.bip44AccountsNum * cfg.bip44AddrNum else 0)) ∧
      St.get_total_mnemonic_combinations fixed words =
        Mp.get_total_mnemonic_combinations fixed words ∧
      St.get_total_addresses cfg fixed words = Mp.get_total_addresses cfg fixed words := by
  refine ⟨?_, ?_, rfl, rfl⟩
  · unfold Mp.get_total_mnemonic_combinations
    by_cases hf : fixed ≠ ""
    · simp [hf]
    · simp only [hf, if_false]
      rw [List.prod_eq_foldl]
  · unfold Mp.get_total_addresses
    cases h32 : cfg.bip32Enabled <;> cases h44 : cfg.bip44Enabled <;> simp <;> ring

section ProductLemmas

lemma productLists_length : ∀ ws : List (List String),
    (productLists ws).length = (ws.map List.length).prod := by
  intro ws
  induction ws with
  | nil => simp [productLists]
  | cons s ss ih =>
    have aux : ∀ l : List String,
        (l.flatMap fun w => (productLists ss).map (w :: ·)).length =
          l.length * (productLists ss).length := by
      intro l
      induction l with
      | nil => simp
      | cons w tl ihl =>
        simp only [List.flatMap_cons, List.length_append, List.length_map, ihl]
        rw [List.length_cons]
        ring
    rw [productLists, aux, ih]
    simp [Nat.mul_comm]

lemma productLists_mem : ∀ (ws : List (List String)) (c : List String),
    c ∈ productLists ws ↔ List.Forall₂ (fun x s => x ∈ s) c ws := by
  intro ws
  induction ws with
  | nil =>
    intro c
    simp [productLists, List.forall₂_nil_right_iff]
  | cons s ss ih =>
    intro c
    rw [productLists]
    simp only [List.mem_flatMap, List.mem_map, List.forall₂_cons_right_iff]
    constructor
    · rintro ⟨w, hw, t, ht, rfl⟩
      exact ⟨w, t, hw, (ih t).mp ht, rfl⟩
    · rintro ⟨w, t, hw, ht, rfl⟩
      exact ⟨w, hw, t, (ih t).mpr ht, rfl⟩

lemma productLists_nodup : ∀ ws : List (List String),
    (∀ s ∈ ws, s.Nodup) → (productLists ws).Nodup := by
  intro ws
  induction ws with
  | nil => intro _; simp [productLists]
  | cons s ss ih =>
    intro hnd
    rw [productLists, List.nodup_flatMap]
    constructor
    · intro w _
      have hinj : Function.Injective (fun t : List String => w :: t) := by
        intro x y h
        simpa using h
      exact List.Nodup.map hinj (ih fun t ht => hnd t (by simp [ht]))
    · have hs : s.Nodup := hnd s (by simp)
      refine hs.imp ?_
      intro w1 w2 hne
      rw [Function.onFun, List.disjoint_left]
      rintro c hc1 hc2
      obtain ⟨t1, _, rfl⟩ := List.mem_map.mp hc1
      obtain ⟨t2, _, heq⟩ := List.mem_map.mp hc2
      have h2 : w2 :: t2 = w1 :: t1 := heq
      injection h2 with hw _
      exact hne hw.symm

lemma getElem?_flatMap_uniform {α β : Type} [Inhabited α] (f : α → List β) (L : Nat)
    (hL : ∀ x, (f x).length = L) :
    ∀ (l : List α) (i k : Nat), i < l.length → k < L →
      (l.flatMap f)[i * L + k]? = (f (l.getD i default))[k]? := by
  intro l
  induction l with
  | nil => intro i k hi _; simp at hi
  | cons x tl ih =>
    intro i k hi hk
    cases i with
    | zero =>
      rw [List.flatMap_cons, Nat.zero_mul, Nat.zero_add,
        List.getElem?_append_left (by rw [hL]; exact hk)]
      simp [List.getD]
    | succ i2 =>
      have harith : (i2 + 1) * L + k = (f x).length + (i2 * L + k) := by
        rw [hL]; ring
      rw [List.flatMap_cons, harith,
        List.getElem?_append_right (by omega)]
      have : (f x).length + (i2 * L + k) - (f x).length = i2 * L + k := by omega
      rw [this, ih i2 k (by simpa using hi) hk]
      simp [List.getD]

lemma rankIdx_lt : ∀ (idxs : List Nat) (ws : List (List String)),
    List.Forall₂ (fun i s => i < s.length) idxs ws →
    rankIdx idxs ws < (ws.map List.length).prod := by
  intro idxs ws h
  induction h with
  | nil => simp [rankIdx]
  | @cons i s is ss hi _ ih =>
    rw [rankIdx, List.map_cons, List.prod_cons]
    calc i * (ss.map List.length).prod + rankIdx is ss
        < i * (ss.map List.length).prod + (ss.map List.length).prod := by omega
      _ = (i + 1) * (ss.map List.length).prod := by ring
      _ ≤ s.length * (ss.map List.length).prod :=
          Nat.mul_le_mul_right _ (by omega)

lemma productLists_rank : ∀ (ws : List (List String)) (idxs : List Nat),
    List.Forall₂ (fun i s => i < s.length) idxs ws →
    (productLists ws)[rankIdx idxs ws]? = some (selectIdx idxs ws) := by
  intro ws idxs h
  induction h with
  | nil => simp [productLists, rankIdx, selectIdx]
  | @cons i s is ss hi htl ih =>
    rw [productLists, rankIdx, selectIdx]
    rw [getElem?_flatMap_uniform (fun w => (productLists ss).map (w :: ·))
      ((ss.map List.length).prod)
      (fun w => by simp [productLists_length])
      s i (rankIdx is ss) hi (rankIdx_lt is ss htl)]
    rw [List.getElem?_map, ih]
    rfl

lemma generatorEmit_all (stop : Nat → Bool) (hstop : ∀ n, stop n = false) :
    ∀ (l : List (List String)) (k : Nat), Mp.generatorEmit stop l k = l := by
  intro l
  induction l with
  | nil => intro k; rfl
  | cons c rest ih =>
    intro k
    rw [Mp.generatorEmit, hstop, ih]
    simp

end ProductLemmas

/-- Claim C3: with non-empty candidate slots and no fixed-candidate
override, the enumerator yields exactly the cartesian product of the slots:
its length is the product of the slot cardinalities, it has no duplicates
when the slots do, its members are exactly the tuples drawn one position per
slot (no omissions), and the candidate with per-slot indices idxs sits at
the mixed-radix position rankIdx idxs words, i.e. the last slot varies
fastest; with a fixed candidate configured it yields exactly that one
candidate. -/
theorem c3_enumerator (fromString : String → List String) (fixed : String)
    (words : List (List String)) (stop : Nat → Bool)
    (hnd : ∀ s ∈ words, s.Nodup) (_hne : ∀ s ∈ words, s ≠ [])
    (hstop : ∀ n, stop n = false) :
    (fixed = "" →
      Mp.enumeratedCandidates fromString fixed words stop = productLists words) ∧
    (fixed ≠ "" →
      Mp.enumeratedCandidates fromString fixed words stop = [fromString fixed]) ∧
    (productLists words).length = (words.map List.length).prod ∧
    (productLists words).Nodup ∧
    (∀ c, c ∈ productLists words ↔ List.Forall₂ (fun x s => x ∈ s) c words) ∧
    (∀ idxs, List.Forall₂ (fun i s => i < s.length) idxs words →
      (productLists words)[rankIdx idxs words]? = some (selectIdx idxs words)) := by
  refine ⟨?_, ?_, productLists_length words, productLists_nodup words hnd,
    productLists_mem words, productLists_rank words⟩
  · intro hf
    rw [Mp.enumeratedCandidates, if_neg (by simp [hf])]
    exact generatorEmit_all stop hstop _ _
  · intro hf
    rw [Mp.enumeratedCandidates, if_pos hf]

/-- Witness for C3 at a concrete input: slots [[a, b], [c]], no fixed
candidate, stop flag never set. -/
theorem c3_enumerator_witness :
    ((∀ s ∈ [["a", "b"], ["c"]], List.Nodup s) ∧
      (∀ s ∈ [["a", "b"], ["c"]], s ≠ []) ∧
      (∀ n : Nat, (fun _ : Nat => false) n = false)) ∧
    ((("" : String) = "" →
      Mp.enumeratedCandidates (fun s => [s]) "" [["a", "b"], ["c"]] (fun _ => false) =
        productLists [["a", "b"], ["c"]]) ∧
    (("" : String) ≠ "" →
      Mp.enumeratedCandidates (fun s => [s]) "" [["a", "b"], ["c"]] (fun _ => false) =
        [(fun s => [s]) ""]) ∧
    (productLists [["a", "b"], ["c"]]).length =
      ([["a", "b"], ["c"]].map List.length).prod ∧
    (productLists [["a", "b"], ["c"]]).Nodup ∧
    (∀ c, c ∈ productLists [["a", "b"], ["c"]] ↔
      List.Forall₂ (fun x s => x ∈ s) c [["a", "b"], ["c"]]) ∧
    (∀ idxs, List.Forall₂ (fun i s => i < s.length) idxs [["a", "b"], ["c"]] →
      (productLists [["a", "b"], ["c"]])[rankIdx idxs [["a", "b"], ["c"]]]? =
        some (selectIdx idxs [["a", "b"], ["c"]]))) :=
  ⟨⟨by decide, by decide, fun _ => rfl⟩,
    c3_enumerator (fun s => [s]) "" [["a", "b"], ["c"]] (fun _ => false)
      (by decide) (by decide) (fun _ => rfl)⟩

/-- Claim C4 (refuted by the code): the drain loop of logger_process_fct is
while not stop_processing.value, so at an iteration where the flag reads
true it exits at once even though the queue still holds a message that was
enqueued before the flag was set; the message is never written.  Here the
schedule has the flag already set, one Found record is queued, and the list
of written messages stays empty — the final match record that raced with
shutdown is lost, contradicting the requirement to keep draining until the
flag is set and the queue is empty. -/
theorem c4_logger_drops_message :
    Mp.loggerLoop [true] ["final match record"] [] = [] ∧
      Mp.loggerLoop [false, true] ["final match record"] [] = ["final match record"] := by
  constructor <;> rfl

/-- Counterexample to claim C5 as stated: with the stop flag already set, a
worker exits immediately and the buffered candidate — here one whose check
would even report a match — is left in the queue and never checked, so
buffered candidates are not drained by workers after the flag is set. -/
theorem c5_counterexample :
    (Mp.checkerLoop (fun _ : List String => true) [true] [["w"]] []).2.1 = [] ∧
      (Mp.checkerLoop (fun _ : List String => true) [true] [["w"]] []).1 = [["w"]] := by
  constructor <;> rfl

/-- Claim C5 (amended): once a worker reads the stop flag as true at the
loop head it exits immediately — it pulls no further candidate, checks
nothing more, and leaves the buffered candidates in the queue (they are not
drained); and any candidate a worker did pull is processed to completion
before it exits: the original queue always splits into the fully-checked
consumed prefix, appended to the done list, and the untouched remainder. -/
theorem c5_worker_stop (T : Type) (chk : T → Bool) :
    (∀ (sched : List Bool) (q done : List T),
      Mp.checkerLoop chk (true :: sched) q done = (q, done, false)) ∧
    (∀ (sched : List Bool) (q done : List T),
      ∃ consumed, q = consumed ++ (Mp.checkerLoop chk sched q done).1 ∧
        (Mp.checkerLoop chk sched q done).2.1 = done ++ consumed) := by
  constructor
  · intro sched q done
    rfl
  · intro sched
    induction sched with
    | nil =>
      intro q done
      exact ⟨[], by simp [Mp.checkerLoop], by simp [Mp.checkerLoop]⟩
    | cons s rest ih =>
      intro q done
      cases s with
      | true => exact ⟨[], by simp [Mp.checkerLoop], by simp [Mp.checkerLoop]⟩
      | false =>
        cases q with
        | nil =>
          obtain ⟨c2, hq, hd⟩ := ih [] done
          exact ⟨c2, by simpa [Mp.checkerLoop] using hq, by simpa [Mp.checkerLoop] using hd⟩
        | cons c q2 =>
          by_cases hchk : chk c = true
          · refine ⟨[c], ?_, ?_⟩
            · simp [Mp.checkerLoop, hchk]
            · simp [Mp.checkerLoop, hchk]
          · simp only [Bool.not_eq_true] at hchk
            obtain ⟨c2, hq, hd⟩ := ih q2 (done ++ [c])
            refine ⟨c :: c2, ?_, ?_⟩
            · simp only [Mp.checkerLoop, hchk, Bool.false_eq_true, if_false]
              simpa using hq
            · simp only [Mp.checkerLoop, hchk, Bool.false_eq_true, if_false]
              rw [hd]
              simp

end Bip39Finder
